import Mathlib

/-!
Verification of the streaming byte-transformer (`lesson3/homework/main.go`,
function `process`) and the tag-cloud utility
(`lesson2/homework/tagcloud/specification.go`).

Bytes are modelled as natural numbers, byte buffers as `List Nat`, runes
(Unicode code points) as natural numbers.  The Go standard-library helpers
used by `process` (`unicode/utf8.DecodeRune`, `utf8.DecodeLastRune`,
`utf8.AppendRune`, `unicode.IsSpace`, `unicode.To`, `bytes.TrimRightFunc`)
are embedded below following their stdlib definitions.
-/

/-- `utf8.RuneError` (U+FFFD), the replacement character. -/
def runeError : Nat := 0xFFFD

/-- `unicode/utf8.DecodeRune`: decode the first code point of a byte
buffer, returning `(rune, size)`.  On an empty buffer it returns
`(RuneError, 0)`; on an invalid or incomplete encoding `(RuneError, 1)`.
The first-byte classification (size and accepted range of the second
byte) mirrors the stdlib `first`/`acceptRanges` tables. -/
def utf8DecodeRune : List Nat → Nat × Nat
  | [] => (runeError, 0)
  | p0 :: rest =>
    if p0 ≤ 0x7F then (p0, 1)
    else if p0 < 0xC2 ∨ 0xF4 < p0 then (runeError, 1)
    else
      let sz : Nat := if p0 ≤ 0xDF then 2 else if p0 ≤ 0xEF then 3 else 4
      let lo : Nat := if p0 = 0xE0 then 0xA0 else if p0 = 0xF0 then 0x90 else 0x80
      let hi : Nat := if p0 = 0xED then 0x9F else if p0 = 0xF4 then 0x8F else 0xBF
      match rest with
      | [] => (runeError, 1)
      | b1 :: rest1 =>
        if b1 < lo ∨ hi < b1 then (runeError, 1)
        else if sz = 2 then ((p0 &&& 0x1F) <<< 6 ||| (b1 &&& 0x3F), 2)
        else match rest1 with
        | [] => (runeError, 1)
        | b2 :: rest2 =>
          if b2 < 0x80 ∨ 0xBF < b2 then (runeError, 1)
          else if sz = 3 then
            ((p0 &&& 0x0F) <<< 12 ||| (b1 &&& 0x3F) <<< 6 ||| (b2 &&& 0x3F), 3)
          else match rest2 with
          | [] => (runeError, 1)
          | b3 :: _ =>
            if b3 < 0x80 ∨ 0xBF < b3 then (runeError, 1)
            else ((p0 &&& 0x07) <<< 18 ||| (b1 &&& 0x3F) <<< 12 |||
                  (b2 &&& 0x3F) <<< 6 ||| (b3 &&& 0x3F), 4)

/-- `unicode/utf8.EncodeRune` (as used by `AppendRune`): the UTF-8
encoding of a code point; surrogates and out-of-range values encode the
replacement character. -/
def utf8EncodeRune (r : Nat) : List Nat :=
  if r ≤ 0x7F then [r]
  else if r ≤ 0x7FF then
    [0xC0 ||| r >>> 6, 0x80 ||| (r &&& 0x3F)]
  else
    let r' := if 0x10FFFF < r ∨ (0xD800 ≤ r ∧ r ≤ 0xDFFF) then runeError else r
    if r' ≤ 0xFFFF then
      [0xE0 ||| r' >>> 12, 0x80 ||| (r' >>> 6 &&& 0x3F), 0x80 ||| (r' &&& 0x3F)]
    else
      [0xF0 ||| r' >>> 18, 0x80 ||| (r' >>> 12 &&& 0x3F),
       0x80 ||| (r' >>> 6 &&& 0x3F), 0x80 ||| (r' &&& 0x3F)]

/-- `unicode/utf8.AppendRune`: append the UTF-8 encoding of `r` to `p`. -/
def utf8AppendRune (p : List Nat) (r : Nat) : List Nat :=
  p ++ utf8EncodeRune r

/-- `unicode/utf8.RuneStart`: whether a byte can be the first byte of an
encoded code point (not a continuation byte). -/
def runeStart (b : Nat) : Bool :=
  b &&& 0xC0 ≠ 0x80

/-- `unicode/utf8.DecodeLastRune`: decode the last code point of a byte
buffer.  It scans backwards at most `UTFMax = 4` bytes for a start byte,
decodes from there, and reports `(RuneError, 1)` if the decoded width
does not reach the end of the buffer. -/
def utf8DecodeLastRune (p : List Nat) : Nat × Nat :=
  let n := p.length
  if n = 0 then (runeError, 0)
  else
    let lastB := p.getD (n - 1) 0
    if lastB < 0x80 then (lastB, 1)
    else
      let start :=
        match (List.range' 1 3).find?
            (fun k => decide (k ≤ n - 1) && runeStart (p.getD (n - 1 - k) 0)) with
        | some k => n - 1 - k
        | none => if n ≤ 4 then 0 else n - 5
      let rs := utf8DecodeRune (p.drop start)
      if start + rs.2 ≠ n then (runeError, 1) else rs

/-- `unicode.IsSpace`: the Latin-1 fast path plus the `White_Space`
ranges above Latin-1 from the stdlib table. -/
def isSpace (r : Nat) : Bool :=
  r = 0x9 ∨ r = 0xA ∨ r = 0xB ∨ r = 0xC ∨ r = 0xD ∨ r = 0x20 ∨
  r = 0x85 ∨ r = 0xA0 ∨ r = 0x1680 ∨ (0x2000 ≤ r ∧ r ≤ 0x200A) ∨
  r = 0x2028 ∨ r = 0x2029 ∨ r = 0x202F ∨ r = 0x205F ∨ r = 0x3000

/-- Fragment of `unicode.CaseRanges` (lo, hi, delta to upper case, delta
to lower case).  Only the Basic Latin letter ranges are listed; every
code point decodable from the inputs used in this development either
falls in these ranges or has no case mapping in Go's table (in
particular U+FFFD has none), so `caseTo` agrees with `unicode.To` on all
code points it is applied to here.  The full Unicode table is elided. -/
def caseRanges : List (Nat × Nat × Int × Int) :=
  [(0x41, 0x5A, 0, 32), (0x61, 0x7A, -32, 0)]

/-- `unicode.To` restricted to `UpperCase`/`LowerCase`: look `r` up in
the case ranges and apply the selected delta; code points in no range
map to themselves. -/
def caseTo (upper : Bool) (r : Nat) : Nat :=
  match caseRanges.find? (fun c => decide (c.1 ≤ r) && decide (r ≤ c.2.1)) with
  | some c => (Int.ofNat r + (if upper then c.2.2.1 else c.2.2.2)).toNat
  | none => r

/-- `unicode.ToUpper` via `unicode.To (unicode.UpperCase, ·)`. -/
def toUpper (r : Nat) : Nat := caseTo true r

/-- `unicode.ToLower` via `unicode.To (unicode.LowerCase, ·)`. -/
def toLower (r : Nat) : Nat := caseTo false r

/-- The loop of `bytes.lastIndexFunc` with `truth = false` and
`f = unicode.IsSpace`: scan code points from the end of `s`, return the
start index of the last code point that is not whitespace, `none` if all
are whitespace.  `i` is the current end position; the fuel argument
bounds the iteration count (callers pass `s.length`, which suffices
because every step decreases `i` by at least one). -/
def lastIndexNoSpace (s : List Nat) : Nat → Nat → Option Nat
  | 0, _ => none
  | _ + 1, 0 => none
  | fuel + 1, i + 1 =>
    let c := s.getD i 0
    let rs := if c < 0x80 then (c, 1) else utf8DecodeLastRune (s.take (i + 1))
    let i' := i + 1 - rs.2
    if isSpace rs.1 then lastIndexNoSpace s fuel i' else some i'

/-- `bytes.TrimRightFunc s unicode.IsSpace`: cut `s` after the last
non-whitespace code point (keeping that code point's full encoding). -/
def trimRightSpace (s : List Nat) : List Nat :=
  match lastIndexNoSpace s s.length s.length with
  | none => []
  | some i =>
    if 0x80 ≤ s.getD i 0 then s.take (i + (utf8DecodeRune (s.drop i)).2)
    else s.take (i + 1)

/-- The `-conv` transform kinds (`ConvOption` constants in `main.go`). -/
inductive ConvOption where
  | upperCase
  | lowerCase
  | trimSpaces
deriving DecidableEq, Repr

/-- The validated options consumed by `process` (`Options` in `main.go`,
with `-conv` already parsed to a transform list and `offset` already
validated non-negative).  Source and sink selection are out of scope:
the source is passed as a byte list, the sink is the returned output. -/
structure Options where
  offset : Nat
  limit : Nat
  blockSize : Nat
  parsedConv : List ConvOption
deriving DecidableEq, Repr

/-- The `for _, conv := range parsedConv` body of `process`
(`main.go:175-192`) applied to one decoded rune: case transforms rewrite
the rune; `trim_spaces` either drops a leading whitespace rune
(`continue SymbolIterate`, modelled as `none`, skipping the rest of the
transform list) or latches `isSpaceEnded` on the first non-whitespace
rune.  Returns the transformed rune and updated `isSpaceEnded`. -/
def applyConv : List ConvOption → Nat → Bool → Option (Nat × Bool)
  | [], r, sp => some (r, sp)
  | c :: rest, r, sp =>
    match c with
    | .upperCase => applyConv rest (toUpper r) sp
    | .lowerCase => applyConv rest (toLower r) sp
    | .trimSpaces =>
      if isSpace r then
        if sp then applyConv rest r sp else none
      else applyConv rest r true

/-- The `SymbolIterate` loop of `process` (`main.go:166-205`): repeatedly
decode the rune at the head of `buffer`; stop if the buffer is shorter
than 3 bytes and decoding failed (possibly-incomplete carry); apply the
transforms; build the tentative output buffer — for a `RuneError` result
the raw bytes `buffer[:size]` starting from a **nil** slice (exactly as
the Go code does, discarding `writerBuf`), otherwise `writerBuf` with
the re-encoded rune appended; stop without consuming if it would exceed
`blockSize`.  Returns `(writerBuf, unconsumed buffer, isSpaceEnded)`.
The fuel argument only bounds recursion; every step consumes at least
one byte, so callers pass `buffer.length`. -/
def symbolIterate (convs : List ConvOption) (blockSize : Nat) :
    Nat → List Nat → List Nat → Bool → List Nat × List Nat × Bool
  | 0, buffer, wb, sp => (wb, buffer, sp)
  | fuel + 1, buffer, wb, sp =>
    if buffer.isEmpty then (wb, buffer, sp)
    else
      let rs := utf8DecodeRune buffer
      if buffer.length < 3 ∧ (rs.2 = 0 ∨ rs.1 = runeError) then (wb, buffer, sp)
      else
        match applyConv convs rs.1 sp with
        | none => symbolIterate convs blockSize fuel (buffer.drop rs.2) wb sp
        | some (r, sp') =>
          let newWriteBuf :=
            if r = runeError then buffer.take rs.2 else utf8AppendRune wb r
          if blockSize < newWriteBuf.length then (wb, buffer, sp')
          else symbolIterate convs blockSize fuel (buffer.drop rs.2) newWriteBuf sp'

/-- The mutable state of the main cycle of `process` plus the reader
position and the bytes written to the sink so far. -/
structure LoopState where
  prevBuffer : List Nat
  isSpaceEnded : Bool
  totalReadBytes : Nat
  remaining : List Nat
  output : List Nat
deriving DecidableEq, Repr

/-- The per-iteration read request size (`main.go:149-152`):
`blockSize`, capped to `limit - totalReadBytes` when a limit is set and
would otherwise be exceeded. -/
def maxReadLength (opts : Options) (total : Nat) : Nat :=
  if 0 < opts.limit ∧ opts.limit < total + opts.blockSize then opts.limit - total
  else opts.blockSize

/-- One iteration of the main cycle of `process` (`main.go:146-225`):
read up to `maxReadLength` bytes (end-of-input is signalled exactly when
no bytes remain), prepend the carry, run `SymbolIterate`, trim trailing
whitespace from the block once leading trim has latched, write the
block, and on the terminal iteration (end of input, or limit reached)
also write the undecoded remainder verbatim.  Returns the next state and
whether the loop breaks. -/
def step (opts : Options) (s : LoopState) : LoopState × Bool :=
  let maxRead := maxReadLength opts s.totalReadBytes
  let endFile := s.remaining.isEmpty
  let chunk := s.remaining.take maxRead
  let buffer := s.prevBuffer ++ chunk
  let it := symbolIterate opts.parsedConv opts.blockSize buffer.length buffer [] s.isSpaceEnded
  let wb := if it.2.2 then trimRightSpace it.1 else it.1
  let total' := s.totalReadBytes + chunk.length
  let stop := endFile ∨ (0 < opts.limit ∧ opts.limit ≤ total')
  (⟨it.2.1, it.2.2, total', s.remaining.drop maxRead,
    s.output ++ wb ++ (if stop then it.2.1 else [])⟩, stop)

/-- The state in which the main cycle starts, after the `offset` bytes
have been discarded from the source. -/
def initState (opts : Options) (input : List Nat) : LoopState :=
  ⟨[], false, 0, input.drop opts.offset, []⟩

/-- The main cycle of `process`, driven by fuel.  Returns `none` when
the fuel runs out, which happens exactly in the configurations where
the Go loop makes no progress (`blockSize = 0` with input left). -/
def runLoop (opts : Options) : Nat → LoopState → Option LoopState
  | 0, _ => none
  | fuel + 1, s =>
    let r := step opts s
    if r.2 then some r.1 else runLoop opts fuel r.1

/-- Errors surfaced by the modelled `process`:
`offsetBeyondInput` for `io.CopyN` failing to discard `offset` bytes
(`main.go:140-145`), `noProgress` when the loop cannot terminate. -/
inductive ProcErr where
  | offsetBeyondInput
  | noProgress
deriving DecidableEq, Repr

/-- `process` (`main.go:103-227`) on a fully known source: discard
`offset` bytes (failing if the source is shorter), then run the main
cycle; the result is the final loop state, whose `output` field is the
byte sequence written to the sink. -/
def processState (opts : Options) (input : List Nat) : Except ProcErr LoopState :=
  if input.length < opts.offset then .error .offsetBeyondInput
  else
    match runLoop opts (input.length - opts.offset + 1) (initState opts input) with
    | some s => .ok s
    | none => .error .noProgress

/-- The pair (bytes written to the sink, error) produced by `process`:
on an error before the loop no bytes have been written. -/
def process (opts : Options) (input : List Nat) : List Nat × Option ProcErr :=
  match processState opts input with
  | .ok s => (s.output, none)
  | .error e => ([], some e)

/-- The options of the run refuting C4: `block_size = 1`, no transforms,
no offset, no limit. -/
def c4Opts : Options := ⟨0, 0, 1, []⟩

/-- One loop iteration of the run refuting C4 (the state component of
`step`). -/
def c4Step (s : LoopState) : LoopState := (step c4Opts s).1

/-- `TagStat` from `tagcloud/specification.go`: statistics regarding a
single tag. -/
structure TagStat where
  Tag : String
  OccurrenceCount : Nat
deriving DecidableEq, Repr

/-- `AddTag` (`specification.go:25-27`), `cloud.tags[tag]++`, on the
`tags` map represented as an association list in first-insertion order
(a determinization of the Go map, whose iteration order is unspecified;
every property proved below is independent of the order).  A missing key
reads as 0, so the tag is inserted with count 1. -/
def addTag : List (String × Nat) → String → List (String × Nat)
  | [], t => [(t, 1)]
  | (k, v) :: rest, t =>
    if k = t then (k, v + 1) :: rest else (k, v) :: addTag rest t

/-- The `tags` map of the `TagCloud` built by `New()`
(`specification.go:19-21`) followed by the given sequence of `AddTag`
calls. -/
def cloudOf (calls : List String) : List (String × Nat) :=
  calls.foldl addTag []

/-- Insertion used to model `slices.SortFunc` with the comparator
`b.OccurrenceCount - a.OccurrenceCount` (`specification.go:39-41`):
descending by occurrence count, ties in implementation-defined order. -/
def insertByCount (x : TagStat) : List TagStat → List TagStat
  | [] => [x]
  | y :: ys =>
    if y.OccurrenceCount < x.OccurrenceCount then x :: y :: ys
    else y :: insertByCount x ys

/-- The sort of `TopN`, descending by occurrence count. -/
def sortByCountDesc (l : List TagStat) : List TagStat :=
  l.foldr insertByCount []

/-- `TopN` (`specification.go:34-46`): collect one `TagStat` per map
entry, sort descending by occurrence count, clamp `n` to the number of
entries and return the first `n`. -/
def TopN (cloud : List (String × Nat)) (n : Nat) : List TagStat :=
  (sortByCountDesc (cloud.map fun p => ⟨p.1, p.2⟩)).take n

/-- C1: the identity property fails on the code.  With no transforms,
`offset = 0`, `limit = 0`, `block_size = 100 ≥ 1`, the input
`"a" ++ [0xFF] ++ "bc"` produces `[0xFF] ++ "bc"`: when the invalid byte
`0xFF` is decoded with at least 3 bytes of buffer left, `process`
rebuilds `newWriteBuf` from a nil slice (`main.go:193-195`), discarding
the already-accepted byte `0x61`, so output ≠ input. -/
theorem process_identity_fails_on_invalid_byte :
    process ⟨0, 0, 100, []⟩ [0x61, 0xFF, 0x62, 0x63] = ([0xFF, 0x62, 0x63], none) ∧
    ([0xFF, 0x62, 0x63] : List Nat) ≠ [0x61, 0xFF, 0x62, 0x63] :=
  ⟨rfl, by decide⟩

/-- C2: on a genuinely invalid byte sequence the invalid byte is indeed
passed through verbatim and processing does not abort, but the second
part of the claim fails: the byte `0x7A` ('z'), already accepted into
the iteration's output buffer, is dropped when the invalid byte `0xFF`
is encountered (`newWriteBuf` is rebuilt from a nil slice at
`main.go:193-195` instead of from `writerBuf`). -/
theorem process_drops_accepted_bytes_on_invalid :
    process ⟨0, 0, 100, []⟩ [0x7A, 0xFF, 0x78, 0x79] = ([0xFF, 0x78, 0x79], none) ∧
    0x7A ∉ ([0xFF, 0x78, 0x79] : List Nat) :=
  ⟨rfl, by decide⟩

/-- C3: block-size invariance fails on an input with no whitespace at
all (so the documented trailing-trim carve-out does not apply) and no
transforms: `"a" ++ [0xFF] ++ "bc"` yields the identity under
`block_size = 2` but loses the byte `0x61` under `block_size = 100`,
because with the larger block the invalid byte is decoded while 3 bytes
remain and the accepted prefix is discarded (`main.go:193-195`). -/
theorem process_output_depends_on_block_size :
    process ⟨0, 0, 2, []⟩ [0x61, 0xFF, 0x62, 0x63] = ([0x61, 0xFF, 0x62, 0x63], none) ∧
    process ⟨0, 0, 100, []⟩ [0x61, 0xFF, 0x62, 0x63] = ([0xFF, 0x62, 0x63], none) ∧
    ([0x61, 0xFF, 0x62, 0x63] : List Nat) ≠ [0xFF, 0x62, 0x63] :=
  ⟨rfl, rfl, by decide⟩

/-- C8: `ToUpper` idempotence fails on the code.  For the input
`"a" ++ [0xFF] ++ "bcde" ++ [0xFF] ++ "fghij"` with `block_size = 4`,
one `upper_case` run drops the accepted `0x41` (the `main.go:193-195`
slip), shortening the output and shifting all later block boundaries;
in the second run the byte `0x45` ('E') is then accepted just before
the second `0xFF` is decoded with 3 bytes left, and is dropped in turn,
so running the transform twice loses one more byte than running it
once. -/
theorem process_upper_case_not_idempotent :
    process ⟨0, 0, 4, [.upperCase]⟩
        [0x61, 0xFF, 0x62, 0x63, 0x64, 0x65, 0xFF, 0x66, 0x67, 0x68, 0x69, 0x6A] =
      ([0xFF, 0x42, 0x43, 0x44, 0x45, 0xFF, 0x46, 0x47, 0x48, 0x49, 0x4A], none) ∧
    process ⟨0, 0, 4, [.upperCase]⟩
        [0xFF, 0x42, 0x43, 0x44, 0x45, 0xFF, 0x46, 0x47, 0x48, 0x49, 0x4A] =
      ([0xFF, 0x42, 0x43, 0x44, 0xFF, 0x46, 0x47, 0x48, 0x49, 0x4A], none) ∧
    ([0xFF, 0x42, 0x43, 0x44, 0xFF, 0x46, 0x47, 0x48, 0x49, 0x4A] : List Nat) ≠
      [0xFF, 0x42, 0x43, 0x44, 0x45, 0xFF, 0x46, 0x47, 0x48, 0x49, 0x4A] :=
  ⟨rfl, rfl, by decide⟩

/-- C4 is false as stated: in the run of `process` on the input
`"é" ++ "ab"` (`[0xC3, 0xA9, 0x61, 0x62]`) with `block_size = 1`, after
four loop iterations — none of which is the terminal one, so all four
occur in the run — the carry buffer holds all four input bytes: length 4
is not strictly below the longest code point encoding (4), exceeds
`block_size = 1`, and the carry starts with a whole decodable code
point (`é`, width 2).  The carry grows because the re-encoded rune can
never fit in a 1-byte block. -/
theorem carry_buffer_bound_fails :
    (c4Step^[4] (initState c4Opts [0xC3, 0xA9, 0x61, 0x62])).prevBuffer =
      [0xC3, 0xA9, 0x61, 0x62] ∧
    ((List.range 4).all fun k =>
      !(step c4Opts (c4Step^[k] (initState c4Opts [0xC3, 0xA9, 0x61, 0x62]))).2) = true ∧
    c4Opts.blockSize < 4 ∧
    utf8DecodeRune [0xC3, 0xA9, 0x61, 0x62] = (0xE9, 2) := by
  refine ⟨rfl, rfl, by decide, rfl⟩

/-- The unconsumed remainder returned by the `SymbolIterate` loop is a
literal (untransformed) suffix of the buffer it was given. -/
theorem symbolIterate_suffix (convs : List ConvOption) (bs : Nat) :
    ∀ (fuel : Nat) (buffer wb : List Nat) (sp : Bool),
      (symbolIterate convs bs fuel buffer wb sp).2.1 <:+ buffer := by
  intro fuel
  induction fuel with
  | zero => exact fun buffer wb sp => List.suffix_refl _
  | succ n ih =>
    intro buffer wb sp
    rw [symbolIterate]
    by_cases h1 : buffer.isEmpty
    · simp [h1]
    · simp only [h1, Bool.false_eq_true, if_false]
      by_cases h2 : buffer.length < 3 ∧
          ((utf8DecodeRune buffer).2 = 0 ∨ (utf8DecodeRune buffer).1 = runeError)
      · simp only [h2, if_true]
        exact List.suffix_refl _
      · simp only [h2, if_false]
        cases happ : applyConv convs (utf8DecodeRune buffer).1 sp with
        | none =>
          exact (ih _ _ _).trans (List.drop_suffix _ _)
        | some p =>
          by_cases h3 : bs <
              (if p.1 = runeError then buffer.take (utf8DecodeRune buffer).2
               else utf8AppendRune wb p.1).length
          · simp only [h3, if_true]
            exact List.suffix_refl _
          · simp only [h3, if_false]
            exact (ih _ _ _).trans (List.drop_suffix _ _)

/-- C4 amended: the carry buffer is *not* bounded by the longest code
point encoding nor by `block_size` (see `carry_buffer_bound_fails`);
what does hold is that within one loop iteration it grows by at most the
newly read bytes, i.e. by at most `block_size`: for every configuration
and every loop state, the next carry is at most the previous carry plus
`block_size` bytes long. -/
theorem carry_buffer_growth_bound (opts : Options) (s : LoopState) :
    (step opts s).1.prevBuffer.length ≤ s.prevBuffer.length + opts.blockSize := by
  have hsuf := symbolIterate_suffix opts.parsedConv opts.blockSize
    (s.prevBuffer ++ s.remaining.take (maxReadLength opts s.totalReadBytes)).length
    (s.prevBuffer ++ s.remaining.take (maxReadLength opts s.totalReadBytes)) [] s.isSpaceEnded
  have hlen := hsuf.length_le
  have hmax : maxReadLength opts s.totalReadBytes ≤ opts.blockSize := by
    unfold maxReadLength; split <;> omega
  have h2 : (s.remaining.take (maxReadLength opts s.totalReadBytes)).length ≤ opts.blockSize :=
    le_trans (List.length_take_le _ _) hmax
  simp only [step, List.length_append]
  simp only [List.length_append] at hlen
  omega

/-- C9: if in one loop iteration the reader has signalled end-of-input
(no bytes remain) and `SymbolIterate` stopped with a nonempty unconsumed
remainder whose head is a fully decodable code point (the stop was the
`block_size` bound of `main.go:200-202`, not an incomplete carry), then
the iteration is the terminal one and everything not consumed is written
to the sink immediately after the transformed (and possibly trimmed)
block, as a literal suffix of the iteration's buffer — verbatim, with no
transform applied. -/
theorem final_iteration_flushes_remainder_verbatim (opts : Options) (s : LoopState)
    (wb rem : List Nat) (sp : Bool)
    (hEnd : s.remaining = [])
    (hit : symbolIterate opts.parsedConv opts.blockSize s.prevBuffer.length
        s.prevBuffer [] s.isSpaceEnded = (wb, rem, sp))
    (hrem : rem ≠ [])
    (hdec : (utf8DecodeRune rem).1 ≠ runeError) :
    (step opts s).2 = true ∧
    (step opts s).1.output =
      s.output ++ (if sp then trimRightSpace wb else wb) ++ rem ∧
    rem <:+ s.prevBuffer := by
  have hsuf := symbolIterate_suffix opts.parsedConv opts.blockSize
      s.prevBuffer.length s.prevBuffer [] s.isSpaceEnded
  rw [hit] at hsuf
  refine ⟨?_, ?_, hsuf⟩ <;>
  · simp only [step, hEnd, List.take_nil, List.append_nil, List.isEmpty_nil, hit]
    simp

/-- Witness for C9: with `block_size = 1`, no transforms, the source
exhausted and the carry holding the two bytes of `é` (whose re-encoding
cannot fit a 1-byte block), the terminal iteration appends those two
bytes verbatim to the output. -/
theorem final_iteration_flushes_remainder_verbatim_witness :
    (step ⟨0, 0, 1, []⟩ ⟨[0xC3, 0xA9], false, 2, [], [0x61]⟩).2 = true ∧
    (step ⟨0, 0, 1, []⟩ ⟨[0xC3, 0xA9], false, 2, [], [0x61]⟩).1.output =
      [0x61] ++ (if false then trimRightSpace [] else []) ++ [0xC3, 0xA9] ∧
    [0xC3, 0xA9] <:+ [0xC3, 0xA9] :=
  final_iteration_flushes_remainder_verbatim ⟨0, 0, 1, []⟩
    ⟨[0xC3, 0xA9], false, 2, [], [0x61]⟩ [] [0xC3, 0xA9] false rfl (by decide)
    (by decide) (by decide)

/-- If the `SymbolIterate` loop consumes its whole buffer under some
block size, it behaves identically under any larger block size: every
acceptance check that passed still passes, and the transform decisions
do not depend on the block size. -/
theorem symbolIterate_block_mono (convs : List ConvOption) {b b' : Nat} (hbb : b ≤ b') :
    ∀ (fuel : Nat) (buffer wb : List Nat) (sp : Bool) (wbR : List Nat) (spR : Bool),
      symbolIterate convs b fuel buffer wb sp = (wbR, [], spR) →
      symbolIterate convs b' fuel buffer wb sp = (wbR, [], spR) := by
  intro fuel
  induction fuel with
  | zero => exact fun buffer wb sp wbR spR h => h
  | succ n ih =>
    intro buffer wb sp wbR spR h
    rw [symbolIterate] at h ⊢
    by_cases h1 : buffer.isEmpty
    · simpa [h1] using h
    · simp only [h1, Bool.false_eq_true, if_false] at h ⊢
      by_cases h2 : buffer.length < 3 ∧
          ((utf8DecodeRune buffer).2 = 0 ∨ (utf8DecodeRune buffer).1 = runeError)
      · rw [if_pos h2] at h
        have h4 : buffer = [] := congrArg (fun q => q.2.1) h
        rw [h4] at h1
        simp at h1
      · rw [if_neg h2] at h ⊢
        cases happ : applyConv convs (utf8DecodeRune buffer).1 sp with
        | none =>
          simp only [happ] at h ⊢
          exact ih _ _ _ _ _ h
        | some p =>
          simp only [happ] at h ⊢
          by_cases h3 : b <
              (if p.1 = runeError then buffer.take (utf8DecodeRune buffer).2
               else utf8AppendRune wb p.1).length
          · rw [if_pos h3] at h
            have h4 : buffer = [] := congrArg (fun q => q.2.1) h
            rw [h4] at h1
            simp at h1
          · rw [if_neg h3] at h
            rw [if_neg (by omega)]
            exact ih _ _ _ _ _ h

/-- One unfolding of the fueled main cycle. -/
theorem runLoop_succ (opts : Options) (fuel : Nat) (s : LoopState) :
    runLoop opts (fuel + 1) s =
      if (step opts s).2 then some (step opts s).1
      else runLoop opts fuel (step opts s).1 := rfl

/-- The main cycle never reads the `offset` field: it only matters
before the loop, when the offset bytes are discarded. -/
theorem runLoop_ignores_offset (o1 o2 l b : Nat) (c : List ConvOption) :
    ∀ (fuel : Nat) (s : LoopState),
      runLoop ⟨o1, l, b, c⟩ fuel s = runLoop ⟨o2, l, b, c⟩ fuel s := by
  intro fuel
  induction fuel with
  | zero => exact fun s => rfl
  | succ n ih =>
    intro s
    rw [runLoop_succ, runLoop_succ]
    have hstep : step ⟨o1, l, b, c⟩ s = step ⟨o2, l, b, c⟩ s := rfl
    rw [hstep, ih]

/-- C5: `process` discards exactly `offset` bytes from the source before
any processing — for `offset ≤ |input|` it coincides with running on the
remaining bytes with offset 0 — and when the source ends before `offset`
bytes could be discarded it fails with the fatal offset error, with no
output bytes written. -/
theorem process_offset_handling (opts : Options) (input : List Nat) :
    (input.length < opts.offset →
      process opts input = ([], some .offsetBeyondInput)) ∧
    (opts.offset ≤ input.length →
      process opts input =
        process ⟨0, opts.limit, opts.blockSize, opts.parsedConv⟩
          (input.drop opts.offset)) := by
  constructor
  · intro h
    simp [process, processState, h]
  · intro h
    have hlen : (input.drop opts.offset).length = input.length - opts.offset :=
      List.length_drop _ _
    simp only [process, processState, initState, hlen, List.drop_zero, Nat.sub_zero]
    rw [if_neg (by omega), if_neg (by omega)]
    obtain ⟨o, l, b, c⟩ := opts
    rw [runLoop_ignores_offset o 0 l b c]

/-- Witness for C5: input of length 5 with `offset = 10` fails fatally
with no output; input `[1,2,3,4,5]` with `offset = 3` equals a run with
offset 0 on `[4,5]`. -/
theorem process_offset_handling_witness :
    process ⟨10, 0, 4, []⟩ [1, 2, 3, 4, 5] = ([], some .offsetBeyondInput) ∧
    process ⟨3, 0, 4, []⟩ [1, 2, 3, 4, 5] = process ⟨0, 0, 4, []⟩ [4, 5] :=
  ⟨(process_offset_handling ⟨10, 0, 4, []⟩ [1, 2, 3, 4, 5]).1 (by decide),
   (process_offset_handling ⟨3, 0, 4, []⟩ [1, 2, 3, 4, 5]).2 (by decide)⟩

/-- C6: for input `"0123456789"` with `offset = 3`, `limit = 4`, no
transforms and any `block_size ≥ 1`, `process` writes exactly `"3456"`
and reads exactly 4 bytes from the source after the offset — the final
state's `totalReadBytes` is 4 and the three bytes `"789"` are still
unread. -/
theorem process_offset_limit_window (b : Nat) (hb : 1 ≤ b) :
    processState ⟨3, 4, b, []⟩ [0x30, 0x31, 0x32, 0x33, 0x34, 0x35, 0x36, 0x37, 0x38, 0x39] =
      .ok ⟨[], false, 4, [0x37, 0x38, 0x39], [0x33, 0x34, 0x35, 0x36]⟩ := by
  match b, hb with
  | 1, _ => rfl
  | 2, _ => rfl
  | 3, _ => rfl
  | (n + 4), _ =>
    have hmr : maxReadLength ⟨3, 4, n + 4, []⟩ 0 = 4 := by
      simp only [maxReadLength]; split <;> omega
    have hsi : symbolIterate [] (n + 4) 4 [0x33, 0x34, 0x35, 0x36] [] false =
        ([0x33, 0x34, 0x35, 0x36], [], false) :=
      @symbolIterate_block_mono [] 4 (n + 4) (by omega) 4 _ _ _ _ _ rfl
    have hstep : step ⟨3, 4, n + 4, []⟩
        (initState ⟨3, 4, n + 4, []⟩
          [0x30, 0x31, 0x32, 0x33, 0x34, 0x35, 0x36, 0x37, 0x38, 0x39]) =
        (⟨[], false, 4, [0x37, 0x38, 0x39], [0x33, 0x34, 0x35, 0x36]⟩, true) := by
      have e1 : List.take 4 (List.drop 3 [48, 49, 50, 51, 52, 53, 54, 55, 56, 57]) =
          [51, 52, 53, 54] := rfl
      simp only [step, initState, hmr, e1, List.nil_append, List.length_cons,
        List.length_nil]
      norm_num
      rw [hsi]
      decide
    unfold processState
    rw [if_neg (by norm_num)]
    rw [show [48, 49, 50, 51, 52, 53, 54, 55, 56, 57].length -
        (⟨3, 4, n + 4, []⟩ : Options).offset + 1 = 7 + 1 from rfl]
    rw [runLoop_succ, hstep]
    rfl

/-- Witness for C6 at `block_size = 1000` (the default). -/
theorem process_offset_limit_window_witness :
    processState ⟨3, 4, 1000, []⟩
        [0x30, 0x31, 0x32, 0x33, 0x34, 0x35, 0x36, 0x37, 0x38, 0x39] =
      .ok ⟨[], false, 4, [0x37, 0x38, 0x39], [0x33, 0x34, 0x35, 0x36]⟩ :=
  process_offset_limit_window 1000 (by decide)

/-- Characterization of one loop iteration in terms of the read size,
the chunk read, and the result of the `SymbolIterate` loop. -/
theorem step_eq (opts : Options) (s : LoopState) (mr : Nat)
    (chunk wb rem : List Nat) (sp : Bool)
    (hmr : maxReadLength opts s.totalReadBytes = mr)
    (hchunk : s.remaining.take mr = chunk)
    (hit : symbolIterate opts.parsedConv opts.blockSize (s.prevBuffer ++ chunk).length
        (s.prevBuffer ++ chunk) [] s.isSpaceEnded = (wb, rem, sp)) :
    step opts s =
      (⟨rem, sp, s.totalReadBytes + chunk.length, s.remaining.drop mr,
        s.output ++ (if sp then trimRightSpace wb else wb) ++
          (if s.remaining.isEmpty = true ∨
              (0 < opts.limit ∧ opts.limit ≤ s.totalReadBytes + chunk.length)
           then rem else [])⟩,
       decide (s.remaining.isEmpty = true ∨
         (0 < opts.limit ∧ opts.limit ≤ s.totalReadBytes + chunk.length))) := by
  simp only [step, hmr, hchunk, hit]

/-- C7: for input `"  hi  there "` with transform list `[trim_spaces]`,
`offset = 0`, `limit = 0` and any `block_size ≥ 12` (large enough to
hold the whole input in one block), `process` outputs exactly
`"hi  there"`: leading whitespace dropped, the trailing space dropped by
the end-of-block trim, and the interior double space preserved. -/
theorem process_trim_interior (b : Nat) (hb : 12 ≤ b) :
    processState ⟨0, 0, b, [.trimSpaces]⟩
        [0x20, 0x20, 0x68, 0x69, 0x20, 0x20, 0x74, 0x68, 0x65, 0x72, 0x65, 0x20] =
      .ok ⟨[], true, 12, [], [0x68, 0x69, 0x20, 0x20, 0x74, 0x68, 0x65, 0x72, 0x65]⟩ := by
  obtain ⟨n, rfl⟩ : ∃ n, b = n + 12 := ⟨b - 12, by omega⟩
  have hdrop : List.drop (n + 12)
      [0x20, 0x20, 0x68, 0x69, 0x20, 0x20, 0x74, 0x68, 0x65, 0x72, 0x65, 0x20] = [] :=
    List.drop_eq_nil_of_le (by simp)
  have hsi : symbolIterate [.trimSpaces] (n + 12) 12
      [0x20, 0x20, 0x68, 0x69, 0x20, 0x20, 0x74, 0x68, 0x65, 0x72, 0x65, 0x20] [] false =
      ([0x68, 0x69, 0x20, 0x20, 0x74, 0x68, 0x65, 0x72, 0x65, 0x20], [], true) :=
    @symbolIterate_block_mono [.trimSpaces] 12 (n + 12) (by omega) 12 _ _ _ _ _ rfl
  have e2 : trimRightSpace [0x68, 0x69, 0x20, 0x20, 0x74, 0x68, 0x65, 0x72, 0x65, 0x20] =
      [0x68, 0x69, 0x20, 0x20, 0x74, 0x68, 0x65, 0x72, 0x65] := rfl
  have hstep1 : step ⟨0, 0, n + 12, [.trimSpaces]⟩
      ⟨[], false, 0, [0x20, 0x20, 0x68, 0x69, 0x20, 0x20, 0x74, 0x68, 0x65, 0x72, 0x65, 0x20], []⟩ =
      (⟨[], true, 12, [], [0x68, 0x69, 0x20, 0x20, 0x74, 0x68, 0x65, 0x72, 0x65]⟩, false) := by
    rw [step_eq ⟨0, 0, n + 12, [.trimSpaces]⟩
      ⟨[], false, 0, [0x20, 0x20, 0x68, 0x69, 0x20, 0x20, 0x74, 0x68, 0x65, 0x72, 0x65, 0x20], []⟩
      (n + 12) [0x20, 0x20, 0x68, 0x69, 0x20, 0x20, 0x74, 0x68, 0x65, 0x72, 0x65, 0x20]
      [0x68, 0x69, 0x20, 0x20, 0x74, 0x68, 0x65, 0x72, 0x65, 0x20] [] true rfl
      (List.take_of_length_le (by simp)) hsi]
    rw [hdrop]
    simp [e2]
  have hstep2 : step ⟨0, 0, n + 12, [.trimSpaces]⟩
      ⟨[], true, 12, [], [0x68, 0x69, 0x20, 0x20, 0x74, 0x68, 0x65, 0x72, 0x65]⟩ =
      (⟨[], true, 12, [], [0x68, 0x69, 0x20, 0x20, 0x74, 0x68, 0x65, 0x72, 0x65]⟩, true) := by
    rw [step_eq ⟨0, 0, n + 12, [.trimSpaces]⟩
      ⟨[], true, 12, [], [0x68, 0x69, 0x20, 0x20, 0x74, 0x68, 0x65, 0x72, 0x65]⟩
      (n + 12) [] [] [] true rfl (by simp) rfl]
    simp [show trimRightSpace ([] : List Nat) = [] from rfl]
  unfold processState
  rw [if_neg (by norm_num)]
  rw [show [0x20, 0x20, 0x68, 0x69, 0x20, 0x20, 0x74, 0x68, 0x65, 0x72, 0x65, 0x20].length -
      (⟨0, 0, n + 12, [.trimSpaces]⟩ : Options).offset + 1 = 12 + 1 from rfl]
  rw [show initState ⟨0, 0, n + 12, [.trimSpaces]⟩
      [0x20, 0x20, 0x68, 0x69, 0x20, 0x20, 0x74, 0x68, 0x65, 0x72, 0x65, 0x20] =
      ⟨[], false, 0, [0x20, 0x20, 0x68, 0x69, 0x20, 0x20, 0x74, 0x68, 0x65, 0x72, 0x65, 0x20], []⟩
      from rfl]
  rw [runLoop_succ, hstep1]
  rw [if_neg (by simp)]
  rw [show (12 : Nat) = 11 + 1 from rfl, runLoop_succ, hstep2]
  rfl

/-- Witness for C7 at `block_size = 1000` (the default). -/
theorem process_trim_interior_witness :
    processState ⟨0, 0, 1000, [.trimSpaces]⟩
        [0x20, 0x20, 0x68, 0x69, 0x20, 0x20, 0x74, 0x68, 0x65, 0x72, 0x65, 0x20] =
      .ok ⟨[], true, 12, [], [0x68, 0x69, 0x20, 0x20, 0x74, 0x68, 0x65, 0x72, 0x65]⟩ :=
  process_trim_interior 1000 (by decide)

/-- `AddTag` on a present key leaves the key list unchanged. -/
theorem addTag_fst_mem : ∀ (acc : List (String × Nat)) (c : String),
    c ∈ acc.map Prod.fst → (addTag acc c).map Prod.fst = acc.map Prod.fst := by
  intro acc c
  induction acc with
  | nil => simp
  | cons kv rest ih =>
    obtain ⟨k, v⟩ := kv
    intro hmem
    by_cases hk : k = c
    · simp [addTag, hk]
    · have : c ∈ rest.map Prod.fst := by
        simpa [hk, Ne.symm hk] using hmem
      simp [addTag, hk, ih this]

/-- `AddTag` on an absent key appends it to the key list. -/
theorem addTag_fst_not_mem : ∀ (acc : List (String × Nat)) (c : String),
    c ∉ acc.map Prod.fst →
    (addTag acc c).map Prod.fst = acc.map Prod.fst ++ [c] := by
  intro acc c
  induction acc with
  | nil => simp [addTag]
  | cons kv rest ih =>
    obtain ⟨k, v⟩ := kv
    intro hmem
    have hk : k ≠ c := by
      intro h; exact hmem (by simp [h])
    have : c ∉ rest.map Prod.fst := fun h => hmem (by simp [h])
    simp [addTag, hk, ih this]

/-- Per-entry characterization of `AddTag` on a map with distinct keys:
each entry of the result is an untouched entry with a different key, the
incremented entry for the added key, or a fresh entry with count 1. -/
theorem mem_addTag_cases : ∀ (acc : List (String × Nat)) (c : String),
    ((acc.map Prod.fst).Nodup) →
    ∀ p ∈ addTag acc c,
      (p ∈ acc ∧ p.1 ≠ c) ∨
      (∃ v, p = (c, v + 1) ∧ (c, v) ∈ acc) ∨
      (p = (c, 1) ∧ c ∉ acc.map Prod.fst) := by
  intro acc c
  induction acc with
  | nil =>
    intro _ p hp
    right; right
    simpa [addTag] using hp
  | cons kv rest ih =>
    obtain ⟨k, v⟩ := kv
    intro hnd p hp
    rw [List.map_cons] at hnd
    have hk_notin : k ∉ rest.map Prod.fst := (List.nodup_cons.1 hnd).1
    have hnd' : (rest.map Prod.fst).Nodup := (List.nodup_cons.1 hnd).2
    by_cases hk : k = c
    · subst hk
      rw [addTag, if_pos rfl] at hp
      rcases List.mem_cons.1 hp with hpe | hp'
      · exact Or.inr (Or.inl ⟨v, hpe, List.mem_cons_self _ _⟩)
      · refine Or.inl ⟨List.mem_cons_of_mem _ hp', ?_⟩
        intro h
        exact hk_notin (h ▸ List.mem_map_of_mem Prod.fst hp')
    · rw [addTag, if_neg hk] at hp
      rcases List.mem_cons.1 hp with hpe | hp'
      · subst hpe
        exact Or.inl ⟨List.mem_cons_self _ _, hk⟩
      · rcases ih hnd' p hp' with ⟨h1, h2⟩ | ⟨w, hw, hmem⟩ | ⟨h1, h2⟩
        · exact Or.inl ⟨List.mem_cons_of_mem _ h1, h2⟩
        · exact Or.inr (Or.inl ⟨w, hw, List.mem_cons_of_mem _ hmem⟩)
        · refine Or.inr (Or.inr ⟨h1, ?_⟩)
          intro h
          have h'' : c = k ∨ c ∈ rest.map Prod.fst := by simpa using h
          rcases h'' with h' | h'
          · exact hk h'.symm
          · exact h2 h'

/-- Invariant of the `tags` map under a sequence of `AddTag` calls:
keys are distinct, a tag is a key iff it was added at least once, and
each key's value is the number of times it was added. -/
theorem cloudOf_inv (calls : List String) :
    ∀ (acc : List (String × Nat)) (processed : List String),
      (acc.map Prod.fst).Nodup →
      (∀ t, t ∈ acc.map Prod.fst ↔ t ∈ processed) →
      (∀ p ∈ acc, p.2 = processed.count p.1) →
      ((List.foldl addTag acc calls).map Prod.fst).Nodup ∧
      (∀ t, t ∈ (List.foldl addTag acc calls).map Prod.fst ↔ t ∈ processed ++ calls) ∧
      (∀ p ∈ List.foldl addTag acc calls, p.2 = (processed ++ calls).count p.1) := by
  induction calls with
  | nil =>
    intro acc processed h1 h2 h3
    refine ⟨h1, ?_, ?_⟩
    · intro t; rw [List.append_nil]; exact h2 t
    · intro p hp; rw [List.append_nil]; exact h3 p hp
  | cons c cs ih =>
    intro acc processed h1 h2 h3
    have hstep1 : ((addTag acc c).map Prod.fst).Nodup := by
      by_cases hc : c ∈ acc.map Prod.fst
      · rw [addTag_fst_mem acc c hc]; exact h1
      · rw [addTag_fst_not_mem acc c hc]
        refine List.Nodup.append h1 (List.nodup_singleton c) ?_
        intro a ha hb
        rw [List.mem_singleton] at hb
        exact hc (hb ▸ ha)
    have hstep2 : ∀ t, t ∈ (addTag acc c).map Prod.fst ↔ t ∈ processed ++ [c] := by
      intro t
      by_cases hc : c ∈ acc.map Prod.fst
      · rw [addTag_fst_mem acc c hc]
        simp only [List.mem_append, List.mem_singleton, h2]
        constructor
        · exact fun h => Or.inl h
        · rintro (h | rfl)
          · exact h
          · exact (h2 t).1 hc
      · rw [addTag_fst_not_mem acc c hc]
        simp [h2]
    have hstep3 : ∀ p ∈ addTag acc c, p.2 = (processed ++ [c]).count p.1 := by
      intro p hp
      rcases mem_addTag_cases acc c h1 p hp with ⟨hmem, hne⟩ | ⟨v, rfl, hmem⟩ | ⟨rfl, hnotin⟩
      · rw [List.count_append]
        simp [h3 p hmem, List.count_cons, hne]
      · have hv : v = processed.count c := h3 (c, v) hmem
        rw [List.count_append]
        simp [hv, List.count_cons]
      · have hc : c ∉ processed := fun h => hnotin ((h2 c).2 h)
        rw [List.count_append]
        simp [List.count_eq_zero.2 hc, List.count_cons]
    have hmain := ih (addTag acc c) (processed ++ [c]) hstep1 hstep2 hstep3
    have heq : processed ++ [c] ++ cs = processed ++ c :: cs := by simp
    rw [heq] at hmain
    exact hmain

/-- The three invariant properties for the cloud built from `New()`. -/
theorem cloudOf_props (calls : List String) :
    ((cloudOf calls).map Prod.fst).Nodup ∧
    (∀ t, t ∈ (cloudOf calls).map Prod.fst ↔ t ∈ calls) ∧
    (∀ p ∈ cloudOf calls, p.2 = calls.count p.1) := by
  have h := cloudOf_inv calls [] [] (by simp) (by simp) (by simp)
  simpa [cloudOf] using h

/-- The size of the `tags` map is the number of distinct tags added. -/
theorem cloudOf_length (calls : List String) :
    (cloudOf calls).length = calls.toFinset.card := by
  obtain ⟨h1, h2, h3⟩ := cloudOf_props calls
  have hkeys : ((cloudOf calls).map Prod.fst).toFinset = calls.toFinset := by
    ext t
    simp only [List.mem_toFinset]
    exact h2 t
  calc (cloudOf calls).length
      = ((cloudOf calls).map Prod.fst).length := (List.length_map _ _).symm
    _ = ((cloudOf calls).map Prod.fst).toFinset.card :=
        (List.toFinset_card_of_nodup h1).symm
    _ = calls.toFinset.card := by rw [hkeys]

/-- Membership in the descending insertion. -/
theorem mem_insertByCount (x : TagStat) :
    ∀ (l : List TagStat) (a : TagStat), a ∈ insertByCount x l ↔ a = x ∨ a ∈ l := by
  intro l
  induction l with
  | nil => intro a; simp [insertByCount]
  | cons y ys ih =>
    intro a
    rw [insertByCount]
    by_cases h : y.OccurrenceCount < x.OccurrenceCount
    · simp [h]
    · simp only [h, if_false, List.mem_cons, ih]
      tauto

/-- The descending insertion is a permutation of consing. -/
theorem insertByCount_perm (x : TagStat) :
    ∀ l : List TagStat, (insertByCount x l).Perm (x :: l) := by
  intro l
  induction l with
  | nil => exact List.Perm.refl _
  | cons y ys ih =>
    rw [insertByCount]
    by_cases h : y.OccurrenceCount < x.OccurrenceCount
    · rw [if_pos h]
    · rw [if_neg h]
      exact (ih.cons y).trans (List.Perm.swap x y ys)

/-- The sort of `TopN` permutes its input. -/
theorem sortByCountDesc_perm (l : List TagStat) : (sortByCountDesc l).Perm l := by
  induction l with
  | nil => exact List.Perm.refl _
  | cons x xs ih =>
    exact (insertByCount_perm x (sortByCountDesc xs)).trans (ih.cons x)

/-- Inserting into a list sorted by non-increasing occurrence count
keeps it sorted. -/
theorem insertByCount_sorted (x : TagStat) :
    ∀ l : List TagStat,
      l.Pairwise (fun a b => b.OccurrenceCount ≤ a.OccurrenceCount) →
      (insertByCount x l).Pairwise (fun a b => b.OccurrenceCount ≤ a.OccurrenceCount) := by
  intro l
  induction l with
  | nil => intro _; simp [insertByCount]
  | cons y ys ih =>
    intro h
    obtain ⟨hy, hys⟩ := List.pairwise_cons.1 h
    rw [insertByCount]
    by_cases hlt : y.OccurrenceCount < x.OccurrenceCount
    · rw [if_pos hlt]
      refine List.pairwise_cons.2 ⟨?_, h⟩
      intro z hz
      rcases List.mem_cons.1 hz with rfl | hz'
      · omega
      · have := hy z hz'
        omega
    · rw [if_neg hlt]
      refine List.pairwise_cons.2 ⟨?_, ih hys⟩
      intro z hz
      rcases (mem_insertByCount x ys z).1 hz with rfl | hz'
      · omega
      · exact hy z hz'

/-- The sort of `TopN` sorts by non-increasing occurrence count. -/
theorem sortByCountDesc_sorted (l : List TagStat) :
    (sortByCountDesc l).Pairwise (fun a b => b.OccurrenceCount ≤ a.OccurrenceCount) := by
  induction l with
  | nil => simp [sortByCountDesc]
  | cons x xs ih => exact insertByCount_sorted x _ ih

/-- C10: for every `TagCloud` (every sequence of `AddTag` calls after
`New()`) and every `n ≥ 0`, `TopN` returns exactly
`min n (number of distinct tags added)` entries, ordered by
non-increasing `OccurrenceCount`, and each returned entry's
`OccurrenceCount` is the number of `AddTag` calls for that tag. -/
theorem topN_spec (calls : List String) (n : Nat) :
    (TopN (cloudOf calls) n).length = min n calls.toFinset.card ∧
    (TopN (cloudOf calls) n).Pairwise
      (fun a b => b.OccurrenceCount ≤ a.OccurrenceCount) ∧
    (∀ p ∈ TopN (cloudOf calls) n, p.OccurrenceCount = calls.count p.Tag) := by
  obtain ⟨h1, h2, h3⟩ := cloudOf_props calls
  refine ⟨?_, ?_, ?_⟩
  · rw [TopN, List.length_take]
    congr 1
    calc (sortByCountDesc ((cloudOf calls).map fun p => ⟨p.1, p.2⟩)).length
        = ((cloudOf calls).map fun p => (⟨p.1, p.2⟩ : TagStat)).length :=
          (sortByCountDesc_perm _).length_eq
      _ = (cloudOf calls).length := List.length_map _ _
      _ = calls.toFinset.card := cloudOf_length calls
  · exact List.Pairwise.sublist (List.take_sublist _ _) (sortByCountDesc_sorted _)
  · intro p hp
    have hp1 : p ∈ sortByCountDesc ((cloudOf calls).map fun p => ⟨p.1, p.2⟩) :=
      List.mem_of_mem_take hp
    have hp2 : p ∈ (cloudOf calls).map (fun p => (⟨p.1, p.2⟩ : TagStat)) :=
      ((sortByCountDesc_perm _).mem_iff).1 hp1
    obtain ⟨q, hq, rfl⟩ := List.mem_map.1 hp2
    exact h3 q hq
